import Mathlib

/-!
Shallow embedding of the Recording class of src/asciinema_edit.py.

Modelling conventions:
- Python float timestamps are modelled as exact rationals.
- Event data strings are modelled as lists of characters; the kind field
  is modelled as a string ("o" for output, "i" for input).
- Methods that can raise a Python exception on the inputs relevant here
  are modelled with Option (none = the exception) or Except.
- Loops that Python runs by index over a mutating list are modelled with
  an explicit fuel argument; the fuel supplied by the wrapper definitions
  is proved sufficient (the loop always terminates before exhausting it),
  and the fuel-exhausted branch is never reached from the wrappers.
-/

structure Event where
  t : ℚ
  kind : String
  data : List Char
deriving DecidableEq

/-- Timestamp of the event at index i, defaulting to 0 out of range. -/
def tsAt (l : List Event) (i : ℕ) : ℚ :=
  (l.map (fun e => e.t)).getD i 0

/-- Kind and data payload of the event at index i. -/
def kdAt (l : List Event) (i : ℕ) : Option (String × List Char) :=
  (l[i]?).map (fun e => (e.kind, e.data))

/-- Python slice l[a:b] for non-negative bounds a and b. -/
def pySlice (l : List Event) (a b : ℕ) : List Event :=
  (l.drop a).take (b - a)

/-- Recording.renormalize (lines 44-48): first_start = self.body[0][0];
every timestamp is shifted down by first_start. Indexing body[0] raises
IndexError on an empty body, modelled as none. -/
def renormalize (body : List Event) : Option (List Event) :=
  match body with
  | [] => none
  | e0 :: rest => some ((e0 :: rest).map (fun e => { e with t := e.t - e0.t }))

/-- Cumulative sums: cumFrom t0 [d1, d2, ...] = [t0 + d1, t0 + d1 + d2, ...].
Models the rewrite loop body[idx][0] = body[idx - 1][0] + deltas[idx]. -/
def cumFrom (t0 : ℚ) : List ℚ → List ℚ
  | [] => []
  | d :: ds => (t0 + d) :: cumFrom (t0 + d) ds

/-- Replace the timestamps of the events by the given list, pointwise. -/
def setTimes : List Event → List ℚ → List Event
  | [], _ => []
  | _ :: _, [] => []
  | e :: es, x :: xs => { e with t := x } :: setTimes es xs

/-- The shared rewrite loop of quantize and speed (lines 76-77, 102-103):
body[0] keeps its timestamp and body[idx][0] = body[idx - 1][0] + deltas[idx]
for idx = 1 .. len - 1, where deltas has one entry per event (entry 0 unused). -/
def rebuildTimes (body : List Event) (deltas : List ℚ) : List Event :=
  match body with
  | [] => []
  | e :: rest => setTimes (e :: rest) (e.t :: cumFrom e.t (deltas.drop 1))

/-- Recording.quantize (lines 62-77): deltas[0] = 0 and, for i from 0,
deltas[i + 1] = min maxDelay (timestamps[i + 1] - timestamps[i]); all
deltas are computed from the original timestamps, then the timestamps
are rebuilt cumulatively. -/
def quantize (body : List Event) (maxDelay : ℚ) : List Event :=
  let ts := body.map (fun e => e.t)
  rebuildTimes body (0 :: List.zipWith (fun a b => min maxDelay (b - a)) ts ts.tail)

/-- One step per unit of fuel of the loop of bisect.bisect_left from the
Python standard library: while lo < hi: mid = (lo + hi) // 2;
if a[mid] < x: lo = mid + 1 else: hi = mid; return lo. When the fuel is
at least hi - lo the loop ends before the fuel does, and a fuel of 0 with
lo >= hi returns lo exactly as the loop does. -/
def blLoop (a : List ℚ) (x : ℚ) : ℕ → ℕ → ℕ → ℕ
  | 0, lo, _ => lo
  | fuel + 1, lo, hi =>
    if lo < hi then
      let mid := (lo + hi) / 2
      if a.getD mid 0 < x then blLoop a x fuel (mid + 1) hi
      else blLoop a x fuel lo mid
    else lo

/-- bisect.bisect_left a x with the default bounds lo = 0, hi = len(a). -/
def bisect_left (a : List ℚ) (x : ℚ) : ℕ :=
  blLoop a x a.length 0 a.length

/-- Comparison by first component: the key function lambda tup: tup[0]
used by sorted in parse_ranges_to_indices. -/
def leFst (p q : ℕ × ℕ) : Prop := p.1 ≤ q.1

instance : DecidableRel leFst := fun p q => inferInstanceAs (Decidable (p.1 ≤ q.1))

instance : IsTotal (ℕ × ℕ) leFst := ⟨fun p q => Nat.le_total p.1 q.1⟩

instance : IsTrans (ℕ × ℕ) leFst := ⟨fun _ _ _ h h2 => Nat.le_trans h h2⟩

/-- Recording.parse_ranges_to_indices (lines 50-60): each time range maps to
(bisect_left timestamps start, bisect_left timestamps end); the index ranges
are then sorted (stably) by their first component. -/
def parse_ranges_to_indices (body : List Event) (ranges : List (ℚ × ℚ)) : List (ℕ × ℕ) :=
  let timestamps := body.map (fun e => e.t)
  List.insertionSort leFst
    (ranges.map (fun r => (bisect_left timestamps r.1, bisect_left timestamps r.2)))

/-- Python slice assignment deltas[a:b] = map(f, deltas[a:b]): applies f to
the entries with index in [a, b), traversed with running index i. -/
def mapSlice (f : ℚ → ℚ) (a b : ℕ) : ℕ → List ℚ → List ℚ
  | _, [] => []
  | i, d :: ds => (if a ≤ i ∧ i < b then f d else d) :: mapSlice f a b (i + 1) ds

/-- Recording.speed (lines 79-103): per-event deltas from the original
timestamps (deltas[0] = 0), each resolved index range scales its slice of
deltas by speedup = 1 / factor, then timestamps are rebuilt cumulatively. -/
def speed (body : List Event) (ranges : List (ℚ × ℚ)) (factor : ℚ) : List Event :=
  let speedup := 1 / factor
  let ts := body.map (fun e => e.t)
  let deltas : List ℚ := 0 :: List.zipWith (fun a b => b - a) ts ts.tail
  let idx_ranges := parse_ranges_to_indices body ranges
  rebuildTimes body
    (List.foldl (fun ds r => mapSlice (fun d => d * speedup) r.1 r.2 0 ds) deltas idx_ranges)

/-- Recording.keep (lines 117-132). Its first statement, line 122, is
assert len(ranges == 1): the expression ranges == 1 compares a list with an
integer and evaluates to False, and len(False) raises TypeError before the
assert can test anything, on every call, whatever body and ranges are.
Every later line of the method is dead code and self.body is never touched. -/
def keep (_body : List Event) (_ranges : List (ℚ × ℚ)) : Except String (List Event) :=
  Except.error ("TypeError: len of bool")

/-- The splicing loop of Recording.excise (lines 185-193) after the slice
before the first range has been taken: between consecutive resolved ranges
keep body[end_of_this : start_of_next], and after the last keep body[end :]. -/
def exciseMiddle (body : List Event) : List (ℕ × ℕ) → List Event
  | [] => []
  | [r] => body.drop r.2
  | r :: r2 :: rs => pySlice body r.2 r2.1 ++ exciseMiddle body (r2 :: rs)

/-- The value assigned to self.body by Recording.excise before it calls
renormalize: everything before the first resolved range start, then the
inter-range and final segments. On an empty range list the source instead
raises IndexError at idx_ranges[0]; excise below returns none there and
this helper is never consulted in that case. -/
def exciseSpliced (body : List Event) (ranges : List (ℚ × ℚ)) : List Event :=
  match parse_ranges_to_indices body ranges with
  | [] => []
  | r0 :: rest => body.take r0.1 ++ exciseMiddle body (r0 :: rest)

/-- Recording.excise (lines 174-199): splice out the resolved ranges, then
renormalize and quantize with the default delay 1. none models the
IndexError on an empty range list (idx_ranges[0]) and the IndexError that
renormalize raises when the splice leaves no event. -/
def excise (body : List Event) (ranges : List (ℚ × ℚ)) : Option (List Event) :=
  match parse_ranges_to_indices body ranges with
  | [] => none
  | _ :: _ => (renormalize (exciseSpliced body ranges)).map (fun rn => quantize rn 1)

/-- Python str.isalnum restricted to the character classes the repository
uses: nonempty and every character alphanumeric. -/
def pyIsAlnum (s : List Char) : Bool :=
  !s.isEmpty && s.all Char.isAlphanum

/-- The effect of for j in range(k): del body[ws] when ws + k <= len(body):
the k events at positions ws .. ws + k - 1 are removed. -/
def delRange (l : List Event) (ws k : ℕ) : List Event :=
  l.take ws ++ l.drop (ws + k)

/-- Recording.del_in_word (lines 134-151), one fuel unit per iteration of
the Python for loop: for i, e in enumerate(self.body) keeps an internal
index and reads self.body[i] of the current (possibly shortened) list, so
it is exactly the loop: while i < len(body): e = body[i]; ...; i += 1.
Deleting word events at a match is del body[word_start] repeated len(word)
times, which raises IndexError when word_start + len(word) > len(body)
(modelled as none; the source would leave a partly deleted body behind,
but the method call itself fails). -/
def delLoop (tgt : List Char) : ℕ → List Event → ℕ → List Char → ℕ → Option (List Event)
  | 0, _, _, _, _ => none
  | fuel + 1, body, i, word, ws =>
    if h : i < body.length then
      let e := body[i]
      if e.kind = "i" ∧ pyIsAlnum e.data = true then
        if word.isEmpty then delLoop tgt fuel body (i + 1) e.data i
        else delLoop tgt fuel body (i + 1) (word ++ e.data) ws
      else
        if word.isEmpty then delLoop tgt fuel body (i + 1) word ws
        else if word = tgt then
          if ws + word.length ≤ body.length then
            delLoop tgt fuel (delRange body ws word.length) (i + 1) [] ws
          else none
        else delLoop tgt fuel body (i + 1) [] ws
    else some body

/-- Recording.del_in_word entry point: word starts empty and word_start at 0.
A fuel of len(body) + 1 always suffices: each iteration strictly decreases
len(body) - i. -/
def delInWord (tgt : List Char) (body : List Event) : Option (List Event) :=
  delLoop tgt (body.length + 1) body 0 [] 0

/-- Round half to even on rationals, the rounding mode of the Python
built-in round (approximating its binary float behaviour by exact
decimal-style rounding on rationals). -/
def roundHalfEven (q : ℚ) : ℤ :=
  let f := ⌊q⌋
  if q - f < 1 / 2 then f
  else if (1 : ℚ) / 2 < q - f then f + 1
  else if f % 2 = 0 then f else f + 1

/-- round(x, 7) of the source (line 31): round to 7 decimal places. -/
def pyRound7 (q : ℚ) : ℚ :=
  (roundHalfEven (q * 10000000) : ℚ) / 10000000

/-- Recording.write (lines 25-42) as its effect on in-memory data: every
event of self.body (not only the written slice) gets its timestamp rounded
to 7 decimal places in place, then the lines written are the header followed
by the slice body[startidx:endidx] of the mutated body. Python treats both
None and 0 as a falsy endidx, replacing it with len(body). The returned
triple is (mutated body, header written, events written). -/
def pyWrite (header : String) (body : List Event) (startidx : ℕ) (endidx : Option ℕ) :
    List Event × String × List Event :=
  let endi := match endidx with
    | none => body.length
    | some k => if k = 0 then body.length else k
  let newBody := body.map (fun e => { e with t := pyRound7 e.t })
  (newBody, header, pySlice newBody startidx endi)

/-- The event list of the test fixture in src/tests.py. -/
def fixtureBody : List Event :=
  [⟨1, "o", ['o', 'n', 'e']⟩, ⟨2, "o", ['t', 'w', 'o']⟩, ⟨3, "i", ['d']⟩,
   ⟨31 / 10, "i", ['e']⟩, ⟨16 / 5, "i", ['l']⟩, ⟨4, "o", ['t', 'h', 'r', 'e', 'e']⟩]

/-- Stream with two separated closed occurrences of the word a. -/
def cexBodyA : List Event :=
  [⟨0, "i", ['a']⟩, ⟨1, "o", ['x']⟩, ⟨2, "i", ['a']⟩, ⟨3, "o", ['y']⟩]

/-- Stream whose first input event carries three characters at once and
whose last event is a single open alphanumeric input character. -/
def cexBody9 : List Event :=
  [⟨0, "i", ['a', 'b', 'c']⟩, ⟨1, "o", ['x']⟩, ⟨2, "i", ['z']⟩]

/-- One-event stream; excising the range (0, 1) removes everything. -/
def cexBody5 : List Event :=
  [⟨0, "o", ['x']⟩]

/-- Two-event stream whose first timestamp 1/3 is not 7-decimal exact. -/
def wBody : List Event :=
  [⟨1 / 3, "o", ['x']⟩, ⟨1, "o", ['y']⟩]

/-- Expected body after del_in_word deletes the word del from the fixture,
matching the assertion of test_delete_word in src/tests.py. -/
def fixtureDeleted : List Event :=
  [⟨1, "o", ['o', 'n', 'e']⟩, ⟨2, "o", ['t', 'w', 'o']⟩, ⟨4, "o", ['t', 'h', 'r', 'e', 'e']⟩]

/-- Stream ending in an open two-character word pw with no boundary after it. -/
def witBody9pre : List Event := [⟨0, "o", ['x']⟩]

/-- The trailing open run of witBody9pre ++ witBody9run. -/
def witBody9run : List Event := [⟨1, "i", ['p']⟩, ⟨2, "i", ['w']⟩]

/-- Three events with an oversized gap (5) and a small gap (1). -/
def quantBody : List Event :=
  [⟨0, "o", ['a']⟩, ⟨5, "o", ['b']⟩, ⟨6, "o", ['c']⟩]

/-- Spec-side characterization (from the words of the specification, not the
source): k is the leftmost insertion point for x in a, i.e. every event
before index k has timestamp strictly below x and, when k is not past the
end, the event at k has timestamp at least x (ties land at k, not after). -/
def specLeftmostInsertion (a : List ℚ) (x : ℚ) (k : ℕ) : Prop :=
  k ≤ a.length ∧ (∀ j, j < k → a.getD j 0 < x) ∧ (k < a.length → x ≤ a.getD k 0)

/-- Four events with integer timestamps 0 to 3; the range (1, 2) resolves
to the index range (1, 2). -/
def wit5Body : List Event :=
  [⟨0, "o", ['a']⟩, ⟨1, "o", ['b']⟩, ⟨2, "i", ['c']⟩, ⟨3, "o", ['d']⟩]

/-- Six events with sorted integer timestamps including a tie at 3. -/
def wit8Body : List Event :=
  [⟨1, "o", ['a']⟩, ⟨2, "o", ['b']⟩, ⟨3, "i", ['c']⟩, ⟨3, "i", ['d']⟩,
   ⟨5, "o", ['e']⟩, ⟨8, "o", ['f']⟩]

theorem getD_lt_length (l : List ℚ) (i : ℕ) (h : i < l.length) :
    l.getD i 0 = l.get ⟨i, h⟩ := by
  induction l generalizing i with
  | nil => simp at h
  | cons a l ih =>
    cases i with
    | zero => simp
    | succ j => simpa using ih j (by simpa using h)

theorem tsAt_cons_zero (e : Event) (l : List Event) : tsAt (e :: l) 0 = e.t := rfl

theorem tsAt_cons_succ (e : Event) (l : List Event) (j : ℕ) :
    tsAt (e :: l) (j + 1) = tsAt l j := rfl

theorem tsAt_map_sub (body : List Event) (c : ℚ) (j : ℕ) (h : j < body.length) :
    tsAt (body.map (fun e => { e with t := e.t - c })) j = tsAt body j - c := by
  induction body generalizing j with
  | nil => simp at h
  | cons e es ih =>
    cases j with
    | zero => simp [tsAt]
    | succ k =>
      have := ih k (by simpa using h)
      simpa [tsAt_cons_succ] using this

theorem tsAt_map_round (body : List Event) (j : ℕ) (h : j < body.length) :
    tsAt (body.map (fun e => { e with t := pyRound7 e.t })) j = pyRound7 (tsAt body j) := by
  induction body generalizing j with
  | nil => simp at h
  | cons e es ih =>
    cases j with
    | zero => simp [tsAt]
    | succ k =>
      have := ih k (by simpa using h)
      simpa [tsAt_cons_succ] using this

theorem kdAt_map_t (g : Event → ℚ) (body : List Event) (j : ℕ) :
    kdAt (body.map (fun e => { e with t := g e })) j = kdAt body j := by
  simp only [kdAt, List.getElem?_map, Option.map_map]
  rfl

theorem setTimes_length (b : List Event) (xs : List ℚ) :
    (setTimes b xs).length = min b.length xs.length := by
  induction b generalizing xs with
  | nil => simp [setTimes]
  | cons e es ih =>
    cases xs with
    | nil => simp [setTimes]
    | cons x rest => simp [setTimes, ih, Nat.succ_min_succ]

theorem tsAt_setTimes (b : List Event) (xs : List ℚ) (j : ℕ)
    (h1 : j < b.length) (h2 : j < xs.length) :
    tsAt (setTimes b xs) j = xs.getD j 0 := by
  induction b generalizing xs j with
  | nil => simp at h1
  | cons e es ih =>
    cases xs with
    | nil => simp at h2
    | cons x rest =>
      cases j with
      | zero => simp [setTimes, tsAt]
      | succ k =>
        have := ih rest k (by simpa using h1) (by simpa using h2)
        simpa [setTimes, tsAt_cons_succ] using this

theorem cumFrom_length (t0 : ℚ) (ds : List ℚ) : (cumFrom t0 ds).length = ds.length := by
  induction ds generalizing t0 with
  | nil => rfl
  | cons d rest ih => simp [cumFrom, ih]

theorem cumFrom_getD_succ (t0 : ℚ) (ds : List ℚ) (j : ℕ) (h : j < ds.length) :
    (t0 :: cumFrom t0 ds).getD (j + 1) 0
      = (t0 :: cumFrom t0 ds).getD j 0 + ds.getD j 0 := by
  induction ds generalizing t0 j with
  | nil => simp at h
  | cons d rest ih =>
    cases j with
    | zero => simp [cumFrom]
    | succ k =>
      have := ih (t0 + d) k (by simpa using h)
      simpa [cumFrom] using this

theorem zipWith_tail_getD (f : ℚ → ℚ → ℚ) (l : List ℚ) (j : ℕ) (h : j + 1 < l.length) :
    (List.zipWith f l l.tail).getD j 0 = f (l.getD j 0) (l.getD (j + 1) 0) := by
  induction l generalizing j with
  | nil => simp at h
  | cons a rest ih =>
    cases rest with
    | nil => simp at h
    | cons b rest' =>
      cases j with
      | zero => simp
      | succ k =>
        have := ih k (by simpa using h)
        simpa using this

theorem quantize_length (body : List Event) (d : ℚ) :
    (quantize body d).length = body.length := by
  cases body with
  | nil => rfl
  | cons e rest =>
    simp only [quantize, rebuildTimes, setTimes_length, List.drop_succ_cons, List.drop_zero,
      List.length_cons, cumFrom_length, List.length_zipWith, List.length_map, List.length_tail]
    omega

theorem quantize_tsAt_zero (body : List Event) (d : ℚ) (h : body ≠ []) :
    tsAt (quantize body d) 0 = tsAt body 0 := by
  cases body with
  | nil => exact absurd rfl h
  | cons e rest =>
    simp only [quantize, rebuildTimes]
    rw [tsAt_setTimes]
    · rfl
    · simp
    · simp

theorem quantize_gap (body : List Event) (d : ℚ) (j : ℕ) (h : j + 1 < body.length) :
    tsAt (quantize body d) (j + 1) - tsAt (quantize body d) j
      = min d (tsAt body (j + 1) - tsAt body j) := by
  cases body with
  | nil => simp at h
  | cons e rest =>
    have hlen : (e :: rest).length = rest.length + 1 := by simp
    set ts : List ℚ := (e :: rest).map (fun ev => ev.t) with hts
    have htslen : ts.length = rest.length + 1 := by simp [hts]
    set dt : List ℚ := List.zipWith (fun a b => min d (b - a)) ts ts.tail with hdt
    have hdtlen : dt.length = rest.length := by
      simp [hdt, htslen, List.length_tail]
    have hq : quantize (e :: rest) d = setTimes (e :: rest) (e.t :: cumFrom e.t dt) := by
      simp only [quantize, rebuildTimes, List.drop_succ_cons, List.drop_zero]
    have hLlen : (e.t :: cumFrom e.t dt).length = rest.length + 1 := by
      simp [cumFrom_length, hdtlen]
    have hj1 : j + 1 < rest.length + 1 := by omega
    have h1 : tsAt (quantize (e :: rest) d) (j + 1) = (e.t :: cumFrom e.t dt).getD (j + 1) 0 := by
      rw [hq, tsAt_setTimes]
      · exact h
      · omega
    have h2 : tsAt (quantize (e :: rest) d) j = (e.t :: cumFrom e.t dt).getD j 0 := by
      rw [hq, tsAt_setTimes]
      · omega
      · omega
    have h3 : (e.t :: cumFrom e.t dt).getD (j + 1) 0
        = (e.t :: cumFrom e.t dt).getD j 0 + dt.getD j 0 :=
      cumFrom_getD_succ e.t dt j (by omega)
    have h4 : dt.getD j 0 = min d (ts.getD (j + 1) 0 - ts.getD j 0) := by
      rw [hdt]
      exact zipWith_tail_getD (fun a b => min d (b - a)) ts j (by omega)
    have h5 : tsAt (e :: rest) (j + 1) = ts.getD (j + 1) 0 := rfl
    have h6 : tsAt (e :: rest) j = ts.getD j 0 := rfl
    rw [h1, h2, h3, h4, h5, h6]
    ring

theorem mapSlice_congr_id (f : ℚ → ℚ) (hf : ∀ d, f d = d) (a b : ℕ) :
    ∀ (i : ℕ) (ds : List ℚ), mapSlice f a b i ds = ds := by
  intro i ds
  induction ds generalizing i with
  | nil => rfl
  | cons d rest ih =>
    simp only [mapSlice, ih, hf]
    split <;> rfl

theorem foldl_mapSlice_id (f : ℚ → ℚ) (hf : ∀ d, f d = d) :
    ∀ (irs : List (ℕ × ℕ)) (ds : List ℚ),
      List.foldl (fun ds r => mapSlice f r.1 r.2 0 ds) ds irs = ds := by
  intro irs
  induction irs with
  | nil => intro ds; rfl
  | cons r rs ih =>
    intro ds
    rw [List.foldl_cons, mapSlice_congr_id f hf r.1 r.2 0 ds]
    exact ih ds

theorem cumFrom_of_gaps (rest : List ℚ) :
    ∀ t0 : ℚ, cumFrom t0 (List.zipWith (fun a b => b - a) (t0 :: rest) rest) = rest := by
  induction rest with
  | nil => intro t0; rfl
  | cons r rs ih =>
    intro t0
    have h1 : t0 + (r - t0) = r := by ring
    simp only [List.zipWith, cumFrom, h1, ih r]

theorem setTimes_self (body : List Event) :
    setTimes body (body.map (fun e => e.t)) = body := by
  induction body with
  | nil => rfl
  | cons e es ih => simp only [List.map_cons, setTimes, ih]

/-- C6: speed (speedUp) with factor 1 leaves every event unchanged: every
scaled delta is the original delta, and the cumulative rebuild of the
unscaled deltas reproduces the pre-call timestamps exactly. -/
theorem speed_factor_one (body : List Event) (ranges : List (ℚ × ℚ)) :
    speed body ranges 1 = body := by
  have hf : ∀ d : ℚ, d * (1 / 1) = d := by intro d; norm_num
  simp only [speed, foldl_mapSlice_id _ hf]
  cases body with
  | nil => rfl
  | cons e rest =>
    simp only [rebuildTimes, List.drop_succ_cons, List.drop_zero, List.map_cons, List.tail_cons]
    rw [cumFrom_of_gaps (rest.map (fun ev => ev.t)) e.t]
    exact setTimes_self (e :: rest)

theorem renormalize_cons (e0 : Event) (rest : List Event) :
    renormalize (e0 :: rest)
      = some ((e0 :: rest).map (fun e => { e with t := e.t - e0.t })) := rfl

theorem renormalize_isSome (body : List Event) (h : body ≠ []) :
    (renormalize body).isSome = true := by
  cases body with
  | nil => exact absurd rfl h
  | cons e rest => simp [renormalize_cons]

theorem renormalize_getD (e0 : Event) (rest : List Event) :
    (renormalize (e0 :: rest)).getD []
      = (e0 :: rest).map (fun e => { e with t := e.t - e0.t }) := rfl

theorem renormalize_length (body : List Event) (h : body ≠ []) :
    ((renormalize body).getD []).length = body.length := by
  cases body with
  | nil => exact absurd rfl h
  | cons e rest => simp [renormalize_getD]

theorem renormalize_tsAt (body : List Event) (h : body ≠ []) (j : ℕ) (hj : j < body.length) :
    tsAt ((renormalize body).getD []) j = tsAt body j - tsAt body 0 := by
  cases body with
  | nil => exact absurd rfl h
  | cons e rest =>
    rw [renormalize_getD, tsAt_map_sub (e :: rest) e.t j hj, tsAt_cons_zero]

theorem renormalize_kdAt (body : List Event) (h : body ≠ []) (j : ℕ) :
    kdAt ((renormalize body).getD []) j = kdAt body j := by
  cases body with
  | nil => exact absurd rfl h
  | cons e rest =>
    rw [renormalize_getD]
    exact kdAt_map_t (fun ev => ev.t - e.t) (e :: rest) j

theorem blLoop_correct (a : List ℚ) (x : ℚ)
    (hmono : ∀ i j, i ≤ j → j < a.length → a.getD i 0 ≤ a.getD j 0) :
    ∀ (fuel lo hi : ℕ), hi - lo ≤ fuel → lo ≤ hi → hi ≤ a.length →
      (∀ j, j < lo → a.getD j 0 < x) →
      (∀ j, hi ≤ j → j < a.length → x ≤ a.getD j 0) →
      (∀ j, j < blLoop a x fuel lo hi → a.getD j 0 < x) ∧
      (∀ j, blLoop a x fuel lo hi ≤ j → j < a.length → x ≤ a.getD j 0) ∧
      lo ≤ blLoop a x fuel lo hi ∧ blLoop a x fuel lo hi ≤ hi := by
  intro fuel
  induction fuel with
  | zero =>
    intro lo hi hfuel hlohi hhi hbelow habove
    have heq : lo = hi := by omega
    refine ⟨hbelow, ?_, Nat.le_refl _, by simp [blLoop, heq]⟩
    intro j hj hjlen
    exact habove j (by simpa [blLoop, heq] using hj) hjlen
  | succ f ih =>
    intro lo hi hfuel hlohi hhi hbelow habove
    by_cases hlh : lo < hi
    · have hmid1 : lo ≤ (lo + hi) / 2 := by omega
      have hmid2 : (lo + hi) / 2 < hi := by omega
      by_cases hcmp : a.getD ((lo + hi) / 2) 0 < x
      · have hstep : blLoop a x (f + 1) lo hi = blLoop a x f ((lo + hi) / 2 + 1) hi := by
          show (if lo < hi then
              if a.getD ((lo + hi) / 2) 0 < x then blLoop a x f ((lo + hi) / 2 + 1) hi
              else blLoop a x f lo ((lo + hi) / 2)
            else lo) = blLoop a x f ((lo + hi) / 2 + 1) hi
          rw [if_pos hlh, if_pos hcmp]
        have hbelow2 : ∀ j, j < (lo + hi) / 2 + 1 → a.getD j 0 < x := by
          intro j hj
          exact lt_of_le_of_lt (hmono j ((lo + hi) / 2) (by omega) (by omega)) hcmp
        have := ih ((lo + hi) / 2 + 1) hi (by omega) (by omega) hhi hbelow2 habove
        rw [hstep]
        exact ⟨this.1, this.2.1, le_trans (by omega) this.2.2.1, this.2.2.2⟩
      · have hstep : blLoop a x (f + 1) lo hi = blLoop a x f lo ((lo + hi) / 2) := by
          show (if lo < hi then
              if a.getD ((lo + hi) / 2) 0 < x then blLoop a x f ((lo + hi) / 2 + 1) hi
              else blLoop a x f lo ((lo + hi) / 2)
            else lo) = blLoop a x f lo ((lo + hi) / 2)
          rw [if_pos hlh, if_neg hcmp]
        have habove2 : ∀ j, (lo + hi) / 2 ≤ j → j < a.length → x ≤ a.getD j 0 := by
          intro j hj hjlen
          exact le_trans (not_lt.mp hcmp) (hmono ((lo + hi) / 2) j hj hjlen)
        have := ih lo ((lo + hi) / 2) (by omega) (by omega) (by omega) hbelow habove2
        rw [hstep]
        exact ⟨this.1, this.2.1, this.2.2.1, le_trans this.2.2.2 (by omega)⟩
    · have heq : lo = hi := by omega
      have hstep : blLoop a x (f + 1) lo hi = lo := by simp [blLoop, hlh]
      rw [hstep]
      refine ⟨hbelow, ?_, Nat.le_refl _, by omega⟩
      intro j hj hjlen
      exact habove j (by omega) hjlen

theorem pairwise_getD_mono (l : List ℚ) (h : l.Pairwise (fun a b => a ≤ b)) :
    ∀ i j, i ≤ j → j < l.length → l.getD i 0 ≤ l.getD j 0 := by
  intro i j hij hj
  rcases Nat.lt_or_ge i j with hlt | hge
  · rw [getD_lt_length l i (by omega), getD_lt_length l j hj]
    exact List.pairwise_iff_get.mp h ⟨i, by omega⟩ ⟨j, hj⟩ hlt
  · have : i = j := by omega
    subst this
    exact le_refl _

theorem bisect_left_correct (a : List ℚ) (x : ℚ)
    (h : a.Pairwise (fun p q => p ≤ q)) :
    specLeftmostInsertion a x (bisect_left a x) := by
  have := blLoop_correct a x (pairwise_getD_mono a h) a.length 0 a.length
    (by omega) (by omega) (le_refl _)
    (by intro j hj; omega)
    (by intro j hj hjlen; omega)
  exact ⟨this.2.2.2, this.1, fun hk => this.2.1 _ (le_refl _) hk⟩

theorem take_append_sublist_of_drop (l : List Event) (s e : ℕ) (x : List Event)
    (hse : s ≤ e) (hx : List.Sublist x (l.drop e)) :
    List.Sublist (l.take s ++ x) l := by
  have hde : l.drop e = (l.drop s).drop (e - s) := by
    rw [List.drop_drop]
    congr 1
    omega
  have hx2 : List.Sublist x (l.drop s) := by
    rw [hde] at hx
    exact hx.trans (List.drop_sublist (e - s) (l.drop s))
  have h3 : List.Sublist (l.take s ++ x) (l.take s ++ l.drop s) :=
    List.Sublist.append_left hx2 (l.take s)
  rwa [List.take_append_drop] at h3

theorem exciseMiddle_sublist (l : List Event) :
    ∀ (rest : List (ℕ × ℕ)) (r0 : ℕ × ℕ),
      List.Chain' (fun p q => p.2 ≤ q.1) (r0 :: rest) →
      (∀ p ∈ r0 :: rest, p.1 ≤ p.2) →
      List.Sublist (exciseMiddle l (r0 :: rest)) (l.drop r0.2) := by
  intro rest
  induction rest with
  | nil =>
    intro r0 _ _
    exact List.Sublist.refl _
  | cons r1 rs ih =>
    intro r0 hchain hwf
    have h01 : r0.2 ≤ r1.1 := (List.chain'_cons.mp hchain).1
    have h11 : r1.1 ≤ r1.2 := hwf r1 (by simp)
    have hchain1 : List.Chain' (fun p q => p.2 ≤ q.1) (r1 :: rs) :=
      (List.chain'_cons.mp hchain).2
    have hwf1 : ∀ p ∈ r1 :: rs, p.1 ≤ p.2 := fun p hp => hwf p (List.mem_cons_of_mem r0 hp)
    have hIH : List.Sublist (exciseMiddle l (r1 :: rs)) (l.drop r1.2) := ih r1 hchain1 hwf1
    have hdd : l.drop r1.2 = (l.drop r0.2).drop (r1.2 - r0.2) := by
      rw [List.drop_drop]
      congr 1
      omega
    have hx : List.Sublist (exciseMiddle l (r1 :: rs)) ((l.drop r0.2).drop (r1.2 - r0.2)) := by
      rwa [hdd] at hIH
    have : List.Sublist ((l.drop r0.2).take (r1.1 - r0.2) ++ exciseMiddle l (r1 :: rs))
        (l.drop r0.2) :=
      take_append_sublist_of_drop (l.drop r0.2) (r1.1 - r0.2) (r1.2 - r0.2)
        (exciseMiddle l (r1 :: rs)) (by omega) hx
    simpa [exciseMiddle, pySlice] using this

theorem exciseSpliced_sublist (body : List Event) (ranges : List (ℚ × ℚ))
    (r0 : ℕ × ℕ) (rest : List (ℕ × ℕ))
    (hp : parse_ranges_to_indices body ranges = r0 :: rest)
    (hchain : List.Chain' (fun p q => p.2 ≤ q.1) (r0 :: rest))
    (hwf : ∀ p ∈ r0 :: rest, p.1 ≤ p.2) :
    List.Sublist (exciseSpliced body ranges) body := by
  have hs : exciseSpliced body ranges = body.take r0.1 ++ exciseMiddle body (r0 :: rest) := by
    simp [exciseSpliced, hp]
  rw [hs]
  exact take_append_sublist_of_drop body r0.1 r0.2 (exciseMiddle body (r0 :: rest))
    (hwf r0 (by simp)) (exciseMiddle_sublist body rest r0 hchain hwf)

theorem delRange_sublist (l : List Event) (ws k : ℕ) :
    List.Sublist (delRange l ws k) l := by
  have hdd : l.drop (ws + k) = (l.drop ws).drop k := by
    rw [List.drop_drop]
  have h1 : List.Sublist (l.take ws ++ (l.drop ws).drop k) (l.take ws ++ l.drop ws) :=
    List.Sublist.append_left (List.drop_sublist k (l.drop ws)) (l.take ws)
  rw [List.take_append_drop] at h1
  show List.Sublist (l.take ws ++ l.drop (ws + k)) l
  rw [hdd]
  exact h1

theorem delLoop_succ_eq (tgt : List Char) (fuel : ℕ) (body : List Event) (i : ℕ)
    (word : List Char) (ws : ℕ) :
    delLoop tgt (fuel + 1) body i word ws =
      if h : i < body.length then
        if body[i].kind = "i" ∧ pyIsAlnum (body[i]).data = true then
          if word.isEmpty then delLoop tgt fuel body (i + 1) (body[i]).data i
          else delLoop tgt fuel body (i + 1) (word ++ (body[i]).data) ws
        else
          if word.isEmpty then delLoop tgt fuel body (i + 1) word ws
          else if word = tgt then
            if ws + word.length ≤ body.length then
              delLoop tgt fuel (delRange body ws word.length) (i + 1) [] ws
            else none
          else delLoop tgt fuel body (i + 1) [] ws
      else some body := rfl

theorem delLoop_sublist :
    ∀ (fuel : ℕ) (tgt : List Char) (body : List Event) (i : ℕ) (word : List Char) (ws : ℕ)
      (r : List Event), delLoop tgt fuel body i word ws = some r → List.Sublist r body := by
  intro fuel
  induction fuel with
  | zero =>
    intro tgt body i word ws r h
    exact absurd h (by simp [delLoop])
  | succ f ih =>
    intro tgt body i word ws r h
    rw [delLoop_succ_eq] at h
    by_cases hi : i < body.length
    · rw [dif_pos hi] at h
      by_cases ha : body[i].kind = "i" ∧ pyIsAlnum (body[i]).data = true
      · rw [if_pos ha] at h
        by_cases hw : word.isEmpty
        · rw [if_pos hw] at h
          exact ih tgt body (i + 1) (body[i]).data i r h
        · rw [if_neg hw] at h
          exact ih tgt body (i + 1) (word ++ (body[i]).data) ws r h
      · rw [if_neg ha] at h
        by_cases hw : word.isEmpty
        · rw [if_pos hw] at h
          exact ih tgt body (i + 1) word ws r h
        · rw [if_neg hw] at h
          by_cases hm : word = tgt
          · rw [if_pos hm] at h
            by_cases hb : ws + word.length ≤ body.length
            · rw [if_pos hb] at h
              exact (ih tgt (delRange body ws word.length) (i + 1) [] ws r h).trans
                (delRange_sublist body ws word.length)
            · rw [if_neg hb] at h
              exact absurd h (by simp)
          · rw [if_neg hm] at h
            exact ih tgt body (i + 1) [] ws r h
    · rw [dif_neg hi] at h
      obtain rfl : body = r := Option.some.inj h
      exact List.Sublist.refl _

theorem delLoop_keeps_suffix (tgt : List Char) (run : List Event)
    (hin : ∀ e ∈ run, e.kind = "i" ∧ pyIsAlnum e.data = true) :
    ∀ (fuel : ℕ) (body : List Event) (i : ℕ) (word : List Char) (ws : ℕ),
      body.length - i < fuel →
      (∃ mid, body = mid ++ run) →
      (∀ e ∈ body, e.kind = "i" → pyIsAlnum e.data = true → e.data.length = 1) →
      (word = [] ∨ ws + word.length = i) →
      ∃ r, delLoop tgt fuel body i word ws = some r ∧ List.IsSuffix run r := by
  intro fuel
  induction fuel with
  | zero =>
    intro body i word ws hfuel _ _ _
    omega
  | succ f ih =>
    intro body i word ws hfuel hex hsingle hword
    obtain ⟨mid, rfl⟩ := hex
    rw [delLoop_succ_eq]
    by_cases hi : i < (mid ++ run).length
    · rw [dif_pos hi]
      have hilen : i < mid.length + run.length := by simpa using hi
      have hflen : mid.length + run.length - i < f + 1 := by simpa using hfuel
      by_cases ha : (mid ++ run)[i].kind = "i" ∧ pyIsAlnum ((mid ++ run)[i]).data = true
      · rw [if_pos ha]
        have hd1 : ((mid ++ run)[i]).data.length = 1 :=
          hsingle _ (List.getElem_mem hi) ha.1 ha.2
        by_cases hw : word.isEmpty = true
        · rw [if_pos hw]
          exact ih (mid ++ run) (i + 1) ((mid ++ run)[i]).data i
            (by simp only [List.length_append]; omega) ⟨mid, rfl⟩ hsingle
            (Or.inr (by rw [hd1]))
        · rw [if_neg hw]
          have hwne : word ≠ [] := fun hcon => hw (by simp [hcon])
          have hwlen : ws + word.length = i := hword.resolve_left hwne
          exact ih (mid ++ run) (i + 1) (word ++ ((mid ++ run)[i]).data) ws
            (by simp only [List.length_append]; omega) ⟨mid, rfl⟩ hsingle
            (Or.inr (by rw [List.length_append, hd1]; omega))
      · rw [if_neg ha]
        have himid : i < mid.length := by
          by_contra hge2
          push_neg at hge2
          have h3 := @List.getElem_append_right Event mid run i hge2 hi
          have hmem : (mid ++ run)[i] ∈ run := by
            rw [h3]
            exact List.getElem_mem (by omega)
          exact ha (hin _ hmem)
        by_cases hw : word.isEmpty = true
        · rw [if_pos hw]
          exact ih (mid ++ run) (i + 1) word ws
            (by simp only [List.length_append]; omega) ⟨mid, rfl⟩ hsingle
            (Or.inl (List.isEmpty_iff.mp hw))
        · rw [if_neg hw]
          have hwne : word ≠ [] := fun hcon => hw (by simp [hcon])
          have hwlen : ws + word.length = i := hword.resolve_left hwne
          by_cases hm : word = tgt
          · rw [if_pos hm]
            have hble : ws + word.length ≤ (mid ++ run).length := by
              simp only [List.length_append]
              omega
            rw [if_pos hble]
            have hsplit : delRange (mid ++ run) ws word.length
                = (mid.take ws ++ mid.drop i) ++ run := by
              show (mid ++ run).take ws ++ (mid ++ run).drop (ws + word.length)
                  = (mid.take ws ++ mid.drop i) ++ run
              rw [hwlen, List.take_append_of_le_length (by omega),
                List.drop_append_of_le_length (by omega), List.append_assoc]
            rw [hsplit]
            refine ih ((mid.take ws ++ mid.drop i) ++ run) (i + 1) [] ws ?_
              ⟨mid.take ws ++ mid.drop i, rfl⟩ ?_ (Or.inl rfl)
            · simp only [List.length_append, List.length_take, List.length_drop]
              omega
            · intro e he hk hal
              apply hsingle e ?_ hk hal
              rcases List.mem_append.mp he with h1 | h2
              · rcases List.mem_append.mp h1 with h11 | h12
                · exact List.mem_append.mpr (Or.inl ((List.take_sublist ws mid).subset h11))
                · exact List.mem_append.mpr (Or.inl ((List.drop_sublist i mid).subset h12))
              · exact List.mem_append.mpr (Or.inr h2)
          · rw [if_neg hm]
            exact ih (mid ++ run) (i + 1) [] ws
              (by simp only [List.length_append]; omega) ⟨mid, rfl⟩ hsingle (Or.inl rfl)
    · rw [dif_neg hi]
      exact ⟨mid ++ run, rfl, List.suffix_append mid run⟩

theorem event_sub_zero (e : Event) : ({ e with t := e.t - 0 }) = e := by
  cases e
  simp

theorem map_shift_zero (l : List Event) :
    l.map (fun e => { e with t := e.t - 0 }) = l := by
  induction l with
  | nil => rfl
  | cons a as ih => rw [List.map_cons, event_sub_zero, ih]

/-- C1 (amended): del_in_word only ever removes events. Whenever the call
completes without an index error, the result is a sublist of the input
stream, so every retained event keeps its timestamp, kind and data and the
relative order is preserved. Completeness of removal fails in general (see
the counterexample): the in-place scan skips the events right after a
deleted word boundary, so a later matching run may survive. -/
theorem del_in_word_only_removes (tgt : List Char) (body r : List Event)
    (h : delInWord tgt body = some r) : List.Sublist r body :=
  delLoop_sublist (body.length + 1) tgt body 0 [] 0 r h

/-- Witness for del_in_word_only_removes at the test fixture of src/tests.py:
deleting the word del removes exactly the three input events. -/
theorem del_in_word_only_removes_witness :
    delInWord ['d', 'e', 'l'] fixtureBody = some fixtureDeleted ∧
    List.Sublist fixtureDeleted fixtureBody :=
  ⟨by decide, del_in_word_only_removes ['d', 'e', 'l'] fixtureBody fixtureDeleted (by decide)⟩

/-- C1 counterexample: in cexBodyA the single-character run at index 2 is a
maximal alphanumeric Input run, closed by the non-Input event at index 3,
and its concatenation equals the target a, yet del_in_word retains it: after
deleting the first run the scan resumes past the event that now occupies the
deleted position, so the second run is never reconstructed. -/
theorem del_in_word_misses_closed_matching_run :
    delInWord ['a'] cexBodyA
      = some [⟨1, "o", ['x']⟩, ⟨2, "i", ['a']⟩, ⟨3, "o", ['y']⟩] ∧
    (⟨2, "i", ['a']⟩ : Event) ∈ [(⟨1, "o", ['x']⟩ : Event), ⟨2, "i", ['a']⟩, ⟨3, "o", ['y']⟩] ∧
    cexBodyA[2]? = some ⟨2, "i", ['a']⟩ ∧
    cexBodyA[3]? = some ⟨3, "o", ['y']⟩ ∧
    (⟨3, "o", ['y']⟩ : Event).kind ≠ "i" ∧
    pyIsAlnum ['a'] = true := by decide

/-- C2: keep raises a TypeError on every call: line 122 evaluates
len(ranges == 1), and ranges == 1 is False, so len raises before the assert
or any slicing can run. The claimed slicing behaviour is dead code. -/
theorem keep_always_raises (body : List Event) (ranges : List (ℚ × ℚ)) :
    keep body ranges = Except.error ("TypeError: len of bool") := rfl

/-- C3 counterexample: renormalize on the empty stream raises (none), it is
not a no-op returning the empty stream. -/
theorem renormalize_empty_raises :
    renormalize ([] : List Event) = none ∧ renormalize ([] : List Event) ≠ some [] := by
  decide

/-- C3 (amended): renormalize fails with a boundary error on the empty
stream (body[0] raises IndexError); on every non-empty stream it succeeds
and shifts every timestamp down by the first timestamp, keeping length,
kinds and data. -/
theorem renormalize_empty_fails_nonempty_shifts :
    renormalize ([] : List Event) = none ∧
    ∀ body : List Event, body ≠ [] →
      (renormalize body).isSome = true ∧
      ((renormalize body).getD []).length = body.length ∧
      (∀ j, j < body.length →
        tsAt ((renormalize body).getD []) j = tsAt body j - tsAt body 0) ∧
      (∀ j, kdAt ((renormalize body).getD []) j = kdAt body j) := by
  refine ⟨rfl, fun body h => ⟨renormalize_isSome body h, renormalize_length body h,
    fun j hj => renormalize_tsAt body h j hj, fun j => renormalize_kdAt body h j⟩⟩

/-- Witness for renormalize_empty_fails_nonempty_shifts at the test fixture. -/
theorem renormalize_empty_fails_nonempty_shifts_witness :
    renormalize ([] : List Event) = none ∧
    (renormalize fixtureBody).isSome = true ∧
    ((renormalize fixtureBody).getD []).length = fixtureBody.length ∧
    tsAt ((renormalize fixtureBody).getD []) 1 = tsAt fixtureBody 1 - tsAt fixtureBody 0 ∧
    kdAt ((renormalize fixtureBody).getD []) 1 = kdAt fixtureBody 1 := by
  have h := renormalize_empty_fails_nonempty_shifts
  have h2 := h.2 fixtureBody (by decide)
  exact ⟨h.1, h2.1, h2.2.1, h2.2.2.1 1 (by decide), h2.2.2.2 1⟩

/-- C4: after quantize every consecutive gap equals the minimum of maxDelay
and the original gap (computed from the pre-call timestamps), hence it is at
most maxDelay when the original gap exceeded maxDelay and equals the
original gap otherwise; the first timestamp and the length are unchanged. -/
theorem quantize_bounds_gaps (body : List Event) (maxDelay : ℚ) (j : ℕ)
    (h : j + 1 < body.length) :
    (quantize body maxDelay).length = body.length ∧
    tsAt (quantize body maxDelay) 0 = tsAt body 0 ∧
    tsAt (quantize body maxDelay) (j + 1) - tsAt (quantize body maxDelay) j
      = min maxDelay (tsAt body (j + 1) - tsAt body j) ∧
    (maxDelay < tsAt body (j + 1) - tsAt body j →
      tsAt (quantize body maxDelay) (j + 1) - tsAt (quantize body maxDelay) j ≤ maxDelay) ∧
    (tsAt body (j + 1) - tsAt body j ≤ maxDelay →
      tsAt (quantize body maxDelay) (j + 1) - tsAt (quantize body maxDelay) j
        = tsAt body (j + 1) - tsAt body j) := by
  have hne : body ≠ [] := by
    intro hcon
    rw [hcon] at h
    simp at h
  have hgap := quantize_gap body maxDelay j h
  refine ⟨quantize_length body maxDelay, quantize_tsAt_zero body maxDelay hne, hgap, ?_, ?_⟩
  · intro _
    rw [hgap]
    exact min_le_left _ _
  · intro hle
    rw [hgap]
    exact min_eq_right hle

/-- Witness for quantize_bounds_gaps: the gap of 5 in quantBody is capped. -/
theorem quantize_bounds_gaps_witness :
    (quantize quantBody 1).length = quantBody.length ∧
    tsAt (quantize quantBody 1) 0 = tsAt quantBody 0 ∧
    tsAt (quantize quantBody 1) 1 - tsAt (quantize quantBody 1) 0
      = min 1 (tsAt quantBody 1 - tsAt quantBody 0) ∧
    tsAt quantBody 1 = 5 ∧ tsAt quantBody 0 = 0 ∧
    tsAt (quantize quantBody 1) 1 - tsAt (quantize quantBody 1) 0 ≤ 1 := by
  have h := quantize_bounds_gaps quantBody 1 0 (by decide)
  refine ⟨h.1, h.2.1, h.2.2.1, by decide, by decide, h.2.2.2.1 (by norm_num [tsAt, quantBody])⟩

/-- C5 (amended): when the resolved index ranges are sorted and
non-overlapping and at least one event survives the splice, excise sets the
body to the concatenation of the segment before the first range, the
segments between consecutive ranges and the segment after the last range,
preserving the original relative order of every retained event (the splice
is a sublist of the original body), and then applies renormalize followed
by quantize with the default delay; when no event survives, renormalize
fails with an indexing error (see the counterexample). -/
theorem excise_splices_and_normalizes (body : List Event) (ranges : List (ℚ × ℚ))
    (r0 : ℕ × ℕ) (rest : List (ℕ × ℕ))
    (hp : parse_ranges_to_indices body ranges = r0 :: rest)
    (hchain : List.Chain' (fun p q => p.2 ≤ q.1) (r0 :: rest))
    (hwf : ∀ p ∈ r0 :: rest, p.1 ≤ p.2)
    (hne : exciseSpliced body ranges ≠ []) :
    List.Sublist (exciseSpliced body ranges) body ∧
    exciseSpliced body ranges = body.take r0.1 ++ exciseMiddle body (r0 :: rest) ∧
    ∃ rn, renormalize (exciseSpliced body ranges) = some rn ∧
      excise body ranges = some (quantize rn 1) := by
  have hs : exciseSpliced body ranges = body.take r0.1 ++ exciseMiddle body (r0 :: rest) := by
    simp [exciseSpliced, hp]
  have hex : excise body ranges
      = (renormalize (exciseSpliced body ranges)).map (fun rn => quantize rn 1) := by
    simp [excise, hp]
  refine ⟨exciseSpliced_sublist body ranges r0 rest hp hchain hwf, hs, ?_⟩
  cases hsp : exciseSpliced body ranges with
  | nil => exact absurd hsp hne
  | cons e es =>
    refine ⟨(e :: es).map (fun ev => { ev with t := ev.t - e.t }), ?_, ?_⟩
    · exact renormalize_cons e es
    · rw [hex, hsp, renormalize_cons]
      rfl

/-- Witness for excise_splices_and_normalizes on wit5Body with the single
range (1, 2), which resolves to index range (1, 2). -/
theorem excise_splices_and_normalizes_witness :
    parse_ranges_to_indices wit5Body [(1, 2)] = [(1, 2)] ∧
    List.Sublist (exciseSpliced wit5Body [(1, 2)]) wit5Body ∧
    exciseSpliced wit5Body [(1, 2)]
      = wit5Body.take 1 ++ exciseMiddle wit5Body [(1, 2)] := by
  have h := excise_splices_and_normalizes wit5Body [(1, 2)] (1, 2) []
    (by decide) (List.chain'_singleton (1, 2)) (by decide) (by decide)
  exact ⟨by decide, h.1, h.2.1⟩

/-- C5 counterexample: with the one-event stream cexBody5 and the single
range (0, 1) the resolved index ranges are sorted and non-overlapping, yet
excise does not produce a renormalized and quantized body: the splice is
empty and renormalize raises an indexing error (none). -/
theorem excise_empty_splice_raises :
    parse_ranges_to_indices cexBody5 [(0, 1)] = [(0, 1)] ∧
    exciseSpliced cexBody5 [(0, 1)] = [] ∧
    excise cexBody5 [(0, 1)] = none := by decide

/-- C7: renormalize is idempotent on every non-empty stream: binding a
second renormalize after the first changes nothing, the first timestamp
after renormalizing is exactly 0, and every inter-event gap is preserved. -/
theorem renormalize_idempotent (body : List Event) (h : body ≠ []) :
    (renormalize body).bind renormalize = renormalize body ∧
    tsAt ((renormalize body).getD []) 0 = 0 ∧
    ∀ j, j + 1 < body.length →
      tsAt ((renormalize body).getD []) (j + 1) - tsAt ((renormalize body).getD []) j
        = tsAt body (j + 1) - tsAt body j := by
  cases body with
  | nil => exact absurd rfl h
  | cons e0 rest =>
    refine ⟨?_, ?_, ?_⟩
    · rw [renormalize_cons, Option.some_bind, List.map_cons, renormalize_cons]
      congr 1
      rw [show ({ e0 with t := e0.t - e0.t } : Event).t = 0 from sub_self e0.t]
      exact map_shift_zero
        ({ e0 with t := e0.t - e0.t } :: rest.map (fun e => { e with t := e.t - e0.t }))
    · rw [renormalize_getD, tsAt_map_sub (e0 :: rest) e0.t 0 (by simp), tsAt_cons_zero]
      exact sub_self e0.t
    · intro j hj
      rw [renormalize_getD, tsAt_map_sub (e0 :: rest) e0.t (j + 1) hj,
        tsAt_map_sub (e0 :: rest) e0.t j (by omega)]
      ring

/-- Witness for renormalize_idempotent at the test fixture. -/
theorem renormalize_idempotent_witness :
    (renormalize fixtureBody).bind renormalize = renormalize fixtureBody ∧
    tsAt ((renormalize fixtureBody).getD []) 0 = 0 ∧
    tsAt ((renormalize fixtureBody).getD []) 1 - tsAt ((renormalize fixtureBody).getD []) 0
      = tsAt fixtureBody 1 - tsAt fixtureBody 0 := by
  have h := renormalize_idempotent fixtureBody (by decide)
  exact ⟨h.1, h.2.1, h.2.2 0 (by decide)⟩

/-- C8: on a chronologically sorted stream, parse_ranges_to_indices maps
each time range (start, end) to (bisect_left ts start, bisect_left ts end),
each of which is the leftmost insertion point (all events before it are
strictly below the bound, and a tie lands at the index, not after it), and
returns the index ranges sorted ascending by start index (a permutation of
the per-range results). -/
theorem parse_ranges_bisect_sorted (body : List Event) (ranges : List (ℚ × ℚ))
    (hsorted : (body.map (fun e => e.t)).Pairwise (fun a b => a ≤ b)) :
    List.Sorted leFst (parse_ranges_to_indices body ranges) ∧
    List.Perm (parse_ranges_to_indices body ranges)
      (ranges.map (fun r => (bisect_left (body.map (fun e => e.t)) r.1,
        bisect_left (body.map (fun e => e.t)) r.2))) ∧
    ∀ r ∈ ranges,
      specLeftmostInsertion (body.map (fun e => e.t)) r.1
        (bisect_left (body.map (fun e => e.t)) r.1) ∧
      specLeftmostInsertion (body.map (fun e => e.t)) r.2
        (bisect_left (body.map (fun e => e.t)) r.2) := by
  refine ⟨List.sorted_insertionSort leFst _, List.perm_insertionSort leFst _, ?_⟩
  intro r _
  exact ⟨bisect_left_correct _ r.1 hsorted, bisect_left_correct _ r.2 hsorted⟩

/-- Witness for parse_ranges_bisect_sorted on wit8Body (tie at timestamp 3):
the range (3, 4) resolves to (2, 4), landing on the first of the two events
with timestamp 3, and the unordered input ranges come back sorted. -/
theorem parse_ranges_bisect_sorted_witness :
    List.Sorted leFst (parse_ranges_to_indices wit8Body [(3, 4), (1, 2)]) ∧
    List.Perm (parse_ranges_to_indices wit8Body [(3, 4), (1, 2)])
      ([((3 : ℚ), (4 : ℚ)), (1, 2)].map (fun r => (bisect_left (wit8Body.map (fun e => e.t)) r.1,
        bisect_left (wit8Body.map (fun e => e.t)) r.2))) ∧
    specLeftmostInsertion (wit8Body.map (fun e => e.t)) 3
      (bisect_left (wit8Body.map (fun e => e.t)) 3) ∧
    parse_ranges_to_indices wit8Body [(3, 4), (1, 2)] = [(0, 1), (2, 4)] ∧
    bisect_left (wit8Body.map (fun e => e.t)) 3 = 2 := by
  have h := parse_ranges_bisect_sorted wit8Body [(3, 4), (1, 2)] (by decide)
  exact ⟨h.1, h.2.1, (h.2.2 (3, 4) (by decide)).1, by decide, by decide⟩

/-- C9 (amended): when every alphanumeric Input event of the stream carries
a single character (the per-character encoding the word reconstruction
assumes) and the stream ends in a run of alphanumeric Input events with no
boundary event after it, del_in_word succeeds and never deletes those
trailing events: the open run is a suffix of the result, whatever the
target is. Without the single-character hypothesis the trailing run can be
deleted (see the counterexample). -/
theorem del_in_word_keeps_open_trailing (tgt : List Char) (pre run : List Event)
    (hin : ∀ e ∈ run, e.kind = "i" ∧ pyIsAlnum e.data = true)
    (hsingle : ∀ e ∈ pre ++ run, e.kind = "i" → pyIsAlnum e.data = true → e.data.length = 1) :
    ∃ r, delInWord tgt (pre ++ run) = some r ∧ List.IsSuffix run r :=
  delLoop_keeps_suffix tgt run hin ((pre ++ run).length + 1) (pre ++ run) 0 [] 0
    (by omega) ⟨pre, rfl⟩ hsingle (Or.inl rfl)

/-- Witness for del_in_word_keeps_open_trailing: the open trailing word pw
equals the target and still survives. -/
theorem del_in_word_keeps_open_trailing_witness :
    delInWord ['p', 'w'] (witBody9pre ++ witBody9run)
      = some [⟨0, "o", ['x']⟩, ⟨1, "i", ['p']⟩, ⟨2, "i", ['w']⟩] ∧
    List.IsSuffix witBody9run [⟨0, "o", ['x']⟩, ⟨1, "i", ['p']⟩, ⟨2, "i", ['w']⟩] := by
  obtain ⟨r, h1, h2⟩ := del_in_word_keeps_open_trailing ['p', 'w'] witBody9pre witBody9run
    (by decide) (by decide)
  have h3 : delInWord ['p', 'w'] (witBody9pre ++ witBody9run)
      = some [⟨0, "o", ['x']⟩, ⟨1, "i", ['p']⟩, ⟨2, "i", ['w']⟩] := by decide
  have h4 : r = [⟨0, "o", ['x']⟩, ⟨1, "i", ['p']⟩, ⟨2, "i", ['w']⟩] :=
    Option.some.inj (h1.symm.trans h3)
  exact ⟨h3, h4 ▸ h2⟩

/-- C9 counterexample: in cexBody9 the stream ends mid-word with the open
single-character run z, yet del_in_word for the target abc deletes it: the
matched word abc came from one three-character Input event, so the deletion
loop removes len(word) = 3 events, overrunning the boundary and swallowing
the trailing open run. -/
theorem del_in_word_deletes_open_trailing :
    delInWord ['a', 'b', 'c'] cexBody9 = some [] ∧
    cexBody9 = [⟨0, "i", ['a', 'b', 'c']⟩] ++ [⟨1, "o", ['x']⟩] ++ [⟨2, "i", ['z']⟩] ∧
    (⟨2, "i", ['z']⟩ : Event).kind = "i" ∧ pyIsAlnum ['z'] = true ∧
    ¬ (⟨2, "i", ['z']⟩ : Event) ∈ ([] : List Event) := by decide

/-- C10: write is not read-only on the in-memory stream: it rounds the
timestamp of every event of the body to 7 decimal places in place,
including events outside the written slice, while kinds, data payloads
and the header are unchanged. -/
theorem write_rounds_all (header : String) (body : List Event) (si : ℕ) (ei : Option ℕ)
    (j : ℕ) (h : j < body.length) :
    ((pyWrite header body si ei).1).length = body.length ∧
    tsAt (pyWrite header body si ei).1 j = pyRound7 (tsAt body j) ∧
    kdAt (pyWrite header body si ei).1 j = kdAt body j ∧
    (pyWrite header body si ei).2.1 = header := by
  refine ⟨by simp [pyWrite], ?_, ?_, rfl⟩
  · show tsAt (body.map (fun e => { e with t := pyRound7 e.t })) j = pyRound7 (tsAt body j)
    exact tsAt_map_round body j h
  · exact kdAt_map_t (fun e => pyRound7 e.t) body j

/-- Witness for write_rounds_all at index 0 of wBody, which lies outside
the written slice body[1:] and still gets its timestamp 1/3 rounded. -/
theorem write_rounds_all_witness :
    ((pyWrite ("hdr") wBody 1 none).1).length = wBody.length ∧
    tsAt (pyWrite ("hdr") wBody 1 none).1 0 = pyRound7 (tsAt wBody 0) ∧
    kdAt (pyWrite ("hdr") wBody 1 none).1 0 = kdAt wBody 0 ∧
    (pyWrite ("hdr") wBody 1 none).2.1 = "hdr" ∧
    pyRound7 (tsAt wBody 0) ≠ tsAt wBody 0 := by
  have h := write_rounds_all ("hdr") wBody 1 none 0 (by decide)
  refine ⟨h.1, h.2.1, h.2.2.1, h.2.2.2, ?_⟩
  have hts : tsAt wBody 0 = 1 / 3 := rfl
  rw [hts]
  norm_num [pyRound7, roundHalfEven]
